import Mathlib

/-!
Verification of the yaatra-data-center file-hosting relay (`server.js`).

The file shallowly embeds the server's pure logic over `List Char` / `String`
and explicit state passing:

* the Naming Scheme (`mkKey`, sanitizer, the `__` timestamp marker and its
  decoding in `mapEntryToItem` / the `/api/dl` handler),
* the Node `path.extname` / `path.basename` functions the server relies on
  (POSIX semantics, including the dot-file and `".."` special cases),
* JavaScript string truthiness for the `||` fallback chains,
* the upload handler's per-file loop with a fallible `put` (explicit state),
* `ensureBucket`'s swallow-everything error policy,
* the `/api/files` dedup-then-sort pipeline of both server variants, and
* the `/api/dl` redirect handler.

Storage-backend calls (`upload`/`put`, `createSignedUrl`, `mime.lookup`,
`getPublicUrl`, date parsing) are modelled as explicit function parameters,
so every theorem quantifies over the behaviour of the remote service.
-/

/-! ## JavaScript regular-expression character class `[^\w\-]`

`\w` in a JavaScript regex is exactly `[A-Za-z0-9_]`; the server sanitizes
base names with `.replace(/[^\w\-]+/g, "_")`. -/

/-- Membership in `[A-Za-z0-9_-]`, the class kept by the sanitizer regex
(`Char.isAlpha`/`Char.isDigit` are the ASCII ranges, exactly as in JS). -/
def isWordChar (c : Char) : Bool :=
  c.isAlpha || c.isDigit || c == '_' || c == '-'

/-- One left-to-right pass of `.replace(/[^\w\-]+/g, "_")`: a maximal run of
characters outside `[A-Za-z0-9_-]` is replaced by a single underscore.  The
flag records whether the previous character was part of such a run. -/
def sanitizeGo : Bool → List Char → List Char
  | _, [] => []
  | prevBad, c :: rest =>
    if isWordChar c then c :: sanitizeGo false rest
    else if prevBad then sanitizeGo true rest
    else '_' :: sanitizeGo true rest

/-- `base.replace(/[^\w\-]+/g, "_")` from the upload handler (line 61). -/
def sanitize (s : String) : String := ⟨sanitizeGo false s.data⟩

/-! ## Node `path` functions (POSIX) -/

/-- Trailing `/` characters are ignored by `path.basename`/`path.extname`. -/
def stripTrailingSlashes (l : List Char) : List Char :=
  (l.reverse.dropWhile (fun c => c == '/')).reverse

/-- The portion of a path after its last `/` (once trailing slashes are
stripped), i.e. the last path component. -/
def lastComponent (l : List Char) : List Char :=
  (l.reverse.takeWhile (fun c => c != '/')).reverse

/-- `path.extname` on the name's character list (POSIX).  Returns the suffix
from the last dot of the final path component; returns `""` when there is no
dot, when the only dot is the leading character (dot-files), or for the
special component `".."`. -/
def extnameCore (p : List Char) : List Char :=
  let name := lastComponent (stripTrailingSlashes p)
  if name = ['.', '.'] then []
  else
    let afterRev := name.reverse.takeWhile (fun c => c != '.')
    if afterRev.length = name.length ∨ afterRev.length + 1 = name.length then []
    else '.' :: afterRev.reverse

/-- `path.extname` on strings. -/
def extname (s : String) : String := ⟨extnameCore s.data⟩

/-- `path.basename(p)` (one argument). -/
def basenameCore (p : List Char) : List Char :=
  lastComponent (stripTrailingSlashes p)

/-- `path.basename(p, ext)`: the last component, with `ext` removed when it is
a proper suffix of it (Node keeps the name unchanged when it equals `ext`). -/
def basenameExtCore (p ext : List Char) : List Char :=
  let b := basenameCore p
  if ext ≠ [] ∧ ext ≠ b ∧ ext.isSuffixOf b then b.take (b.length - ext.length)
  else b

/-- `path.basename(p, ext)` on strings. -/
def basenameExt (p ext : String) : String := ⟨basenameExtCore p.data ext.data⟩

/-! ## The `__` timestamp marker -/

/-- `name.includes("__")`. -/
def hasMarker : List Char → Bool
  | [] => false
  | [_] => false
  | c :: d :: rest => (c == '_' && d == '_') || hasMarker (d :: rest)

/-- `name.split("__")[0]`: the characters before the first occurrence of the
substring `"__"` (the whole list when there is none). -/
def beforeMarker : List Char → List Char
  | [] => []
  | [c] => [c]
  | c :: d :: rest =>
    if c == '_' && d == '_' then [] else c :: beforeMarker (d :: rest)

/-- Display-name decoding from `mapEntryToItem` (line 88):
`name.includes("__") ? name.split("__")[0] + ext : name` with
`ext = path.extname(name)`. -/
def decodeDisplay (name : String) : String :=
  if hasMarker name.data then (⟨beforeMarker name.data⟩ : String) ++ extname name
  else name

/-! ## JavaScript `||` fallback over possibly-missing strings

`undefined` and `""` are falsy; any other string is truthy. -/

/-- `a || b` where `a` is a possibly-absent string. -/
def jsOrOpt (a : Option String) (b : String) : String :=
  match a with
  | none => b
  | some s => if s = "" then b else s

-- Sanity checks of the model on the concrete examples from the spec.
example : sanitize "My Report" = "My_Report" := by decide
example : sanitize "a  b" = "a_b" := by decide
example : extname "report__1700000000000.pdf" = ".pdf" := by decide
example : extname ".gitignore" = "" := by decide
example : extname ".." = "" := by decide
example : extname "a.." = "." := by decide
example : basenameExt "dir/My Report.pdf" ".pdf" = "My Report" := by decide
example : basenameExt ".html" ".html" = ".html" := by decide
example : decodeDisplay "My_Report__1700000000000.pdf" = "My_Report.pdf" := by decide
example : decodeDisplay "legacy.txt" = "legacy.txt" := by decide
example : jsOrOpt (some "") "x" = "x" := by decide

/-! ## Upload handler (`POST /api/upload`, lines 50-78)

The storage backend's `upload` call (`supabase.storage.from(BUCKET).upload`)
is a parameter `put : sigma -> key -> bytes -> contentType -> Except message
sigma`, where `sigma` is the backend state; `mime.lookup` is a parameter
`lookup : extension -> Option String` (`none` models its `false` result). -/

/-- One uploaded multipart file as seen by the handler (multer). -/
structure UploadedFile where
  originalname : String
  mimetype : Option String
  buffer : List Nat
deriving DecidableEq

/-- The key computation from lines 60-62:
`${UPLOAD_PREFIX}/${base}__${now}${ext}` with `UPLOAD_PREFIX = "uploads"`,
`ext = path.extname(f.originalname)` and
`base = path.basename(f.originalname, ext).replace(/[^\w\-]+/g, "_")`. -/
def mkKey (originalname : String) (now : Nat) : String :=
  "uploads/" ++ sanitize (basenameExt originalname (extname originalname))
    ++ "__" ++ Nat.repr now ++ extname originalname

/-- Line 63: `f.mimetype || mime.lookup(ext) || "application/octet-stream"`. -/
def uploadContentType (lookup : String → Option String) (f : UploadedFile) : String :=
  jsOrOpt f.mimetype (jsOrOpt (lookup (extname f.originalname)) "application/octet-stream")

/-- The JSON body + status the upload route can produce.  `count` and `files`
are optional because the zero-file and error branches omit them. -/
structure UploadResponse where
  status : Nat
  ok : Bool
  count : Option Nat
  files : Option (List String)
  error : Option String
deriving DecidableEq

/-- The `for (const f of files)` loop: keys accumulated so far, a `put` per
file; the first `put` error aborts with the route's catch-all
`res.status(500).json({ ok:false, error { e.message } })`. -/
def uploadGo {σ : Type} (put : σ → String → List Nat → String → Except String σ)
    (lookup : String → Option String) (now : Nat) :
    σ → List String → List UploadedFile → σ × UploadResponse
  | st, keys, [] =>
    (st, ⟨200, true, some keys.length, some keys, none⟩)
  | st, keys, f :: rest =>
    match put st (mkKey f.originalname now) f.buffer (uploadContentType lookup f) with
    | Except.ok stN => uploadGo put lookup now stN (keys ++ [mkKey f.originalname now]) rest
    | Except.error e => (st, ⟨500, false, none, none, some e⟩)

/-- The upload route body after `ensureBucket` (lines 53-77): an empty batch
short-circuits to `{ ok:true, count:0 }` (no `files` field); otherwise the
per-file loop runs with a single `now = Date.now()` for the whole batch. -/
def runUpload {σ : Type} (put : σ → String → List Nat → String → Except String σ)
    (lookup : String → Option String) (st : σ) (files : List UploadedFile)
    (now : Nat) : σ × UploadResponse :=
  if files.length = 0 then (st, ⟨200, true, some 0, none, none⟩)
  else uploadGo put lookup now st [] files

/-! ## `ensureBucket` (lines 26-44) -/

/-- The slice of a Supabase bucket record the function looks at. -/
structure BucketInfo where
  isPublic : Bool
deriving DecidableEq

/-- The `try` body of `ensureBucket`: `getBucket` yields `(data, error)`;
`getErr || !bucket` leads to `createBucket` (throwing its error), an existing
private bucket leads to `updateBucket` (throwing its error). -/
def ensureBucketBody (bucket : Option BucketInfo) (getErr createErr updErr : Option String) :
    Except String Unit :=
  if getErr.isSome ∨ bucket.isNone then
    match createErr with
    | some e => Except.error e
    | none => Except.ok ()
  else if bucket = some ⟨false⟩ then
    match updErr with
    | some e => Except.error e
    | none => Except.ok ()
  else Except.ok ()

/-- `ensureBucket` with its own `catch (e) { console.error(...) }`: every
error of the body is swallowed after logging. -/
def ensureBucket (bucket : Option BucketInfo) (getErr createErr updErr : Option String) :
    Except String Unit :=
  match ensureBucketBody bucket getErr createErr updErr with
  | Except.error _ => Except.ok ()
  | Except.ok _ => Except.ok ()

/-- The whole `POST /api/upload` route: `await ensureBucket()` and then the
batch.  Were `ensureBucket` to throw, the route's catch would answer 500. -/
def runUploadRoute {σ : Type} (bucket : Option BucketInfo)
    (getErr createErr updErr : Option String)
    (put : σ → String → List Nat → String → Except String σ)
    (lookup : String → Option String) (st : σ) (files : List UploadedFile)
    (now : Nat) : σ × UploadResponse :=
  match ensureBucket bucket getErr createErr updErr with
  | Except.error e => (st, ⟨500, false, none, none, some e⟩)
  | Except.ok _ => runUpload put lookup st files now

-- Sanity checks on concrete batches.
example : mkKey "My Report.pdf" 1700000000000 =
    "uploads/My_Report__1700000000000.pdf" := by decide
example :
    (runUpload (fun (st : List String) k _ _ => Except.ok (st ++ [k])) (fun _ => none)
      [] [⟨"a.txt", none, [1]⟩] 5) =
    (["uploads/a__5.txt"], ⟨200, true, some 1, some ["uploads/a__5.txt"], none⟩) := by
  decide
example :
    (runUpload (fun (st : List String) k _ _ =>
        if k = "uploads/b__5.txt" then Except.error "boom" else Except.ok (st ++ [k]))
      (fun _ => none) [] [⟨"a.txt", none, []⟩, ⟨"b.txt", none, []⟩] 5) =
    (["uploads/a__5.txt"], ⟨500, false, none, none, some "boom"⟩) := by
  decide

/-! ## Listing (`GET /api/files`)

Raw Supabase `list` entries, `mapEntryToItem` (lines 81-100), and the
dedup + sort pipeline applied to whatever `collected` array the prefix walk
produced (lines 153-164, and lines 345-354 of variant B). -/

/-- The `metadata` object of a raw Supabase entry, where present. -/
structure EntryMetadata where
  mimetype : Option String
  size : Option Nat
deriving DecidableEq

/-- A raw entry returned by `supabase.storage.from(BUCKET).list(...)`. -/
structure RawEntry where
  name : String
  id : Option String
  size : Option Nat
  metadata : Option EntryMetadata
  updated_at : Option String
  created_at : Option String
deriving DecidableEq

/-- Line 84 of `mapEntryToItem`:
`entry.metadata?.mimetype || mime.lookup(ext) || "application/octet-stream"`
with `ext = path.extname(entry.name)`. -/
def entryType (lookup : String → Option String) (entry : RawEntry) : String :=
  jsOrOpt (entry.metadata.bind (fun m => m.mimetype))
    (jsOrOpt (lookup (extname entry.name)) "application/octet-stream")

/-- An item pushed by `mapEntryToItem` (variant A, lines 91-99). -/
structure Item where
  name : String
  url : String
  key : String
  type : String
  size : Nat
  uploadedAt : Nat
  dl : String
deriving DecidableEq

/-- `mapEntryToItem(prefix, entry)` — the UI item for one raw file entry.
`pubUrl` models `getPublicUrl`, `encodeComp` models `encodeURIComponent`,
`parseDate` models `new Date(s).getTime()` and `nowIso` the
`new Date().toISOString()` fallback. -/
def mapEntryToItem (lookup : String → Option String) (pubUrl encodeComp : String → String)
    (parseDate : String → Nat) (nowIso : String) (pfx : String) (entry : RawEntry) :
    Item :=
  let fullKey := if pfx = "" then entry.name else pfx ++ "/" ++ entry.name
  { name := decodeDisplay entry.name
    url := pubUrl fullKey
    key := fullKey
    type := entryType lookup entry
    size := (entry.metadata.bind (fun m => m.size)).getD (entry.size.getD 0)
    uploadedAt := parseDate (jsOrOpt entry.updated_at (jsOrOpt entry.created_at nowIso))
    dl := "/api/dl?key=" ++ encodeComp fullKey }

/-- Variant A's dedup key (line 157):
`${it.key}|${it.size}|${it.uploadedAt}`. -/
def compositeA (it : Item) : String :=
  it.key ++ "|" ++ Nat.repr it.size ++ "|" ++ Nat.repr it.uploadedAt

/-- The `seen`-set dedup loop, generic over which composite string a variant
computes.  The JS `Set` of strings is a list with membership. -/
def dedupGo {α : Type} (keyOf : α → String) : List String → List α → List α
  | _, [] => []
  | seen, it :: rest =>
    if keyOf it ∈ seen then dedupGo keyOf seen rest
    else it :: dedupGo keyOf (keyOf it :: seen) rest

/-- Lines 154-161: dedup of the collected items (variant A). -/
def dedupA (l : List Item) : List Item := dedupGo compositeA [] l

/-- Line 162: `items.sort((a,b)=> b.uploadedAt - a.uploadedAt)` — a sort that
is descending in `uploadedAt`. -/
def sortItems (l : List Item) : List Item :=
  l.insertionSort (fun a b => b.uploadedAt ≤ a.uploadedAt)

/-- The `/api/files` dedup + sort pipeline of variant A applied to the
collected raw walk output. -/
def runFiles (collected : List Item) : List Item := sortItems (dedupA collected)

/-- An item pushed by variant B's inline mapper (lines 302-308): no `key`
and no `dl` field. -/
structure ItemB where
  name : String
  url : String
  type : String
  size : Nat
  uploadedAt : Nat
deriving DecidableEq

/-- Variant B's dedup key (line 349): `${it.url}|${it.size}|${it.uploadedAt}`. -/
def compositeB (it : ItemB) : String :=
  it.url ++ "|" ++ Nat.repr it.size ++ "|" ++ Nat.repr it.uploadedAt

/-- Lines 346-353: dedup of the collected items (variant B). -/
def dedupB (l : List ItemB) : List ItemB := dedupGo compositeB [] l

/-- Line 354 of variant B: the same descending sort. -/
def sortItemsB (l : List ItemB) : List ItemB :=
  l.insertionSort (fun a b => b.uploadedAt ≤ a.uploadedAt)

/-- Variant B's `/api/files` dedup + sort pipeline. -/
def runFilesB (collected : List ItemB) : List ItemB := sortItemsB (dedupB collected)

/-- The `GET /api/files` route of variant A around the pipeline:
`await ensureBucket()` and then the walk + dedup + sort, `200` with the items
on success. -/
def runFilesRoute (bucket : Option BucketInfo) (getErr createErr updErr : Option String)
    (collected : List Item) : Nat × Option (List Item) × Option String :=
  match ensureBucket bucket getErr createErr updErr with
  | Except.error e => (500, none, some e)
  | Except.ok _ => (200, some (runFiles collected), none)

/-! ## Download redirector (`GET /api/dl`, lines 172-186) -/

/-- A plain HTTP response: status, body text, and the `Location` header of a
redirect (`res.redirect(url)` answers `302`). -/
structure HttpRes where
  status : Nat
  body : String
  location : Option String
deriving DecidableEq

/-- Line 176: `path.basename(key).split("__")[0]` — the forced download
filename passed to `createSignedUrl`. -/
def dlNiceName (key : String) : String := ⟨beforeMarker (basenameCore key.data)⟩

/-- The `/api/dl` handler.  `signed key ttl downloadName` models
`createSignedUrl(key, ttl, { download: downloadName })`, `none` being its
error outcome.  `req.query.key` is absent (`none`) or a string; the empty
string is falsy for `if (!key)` just like absence. -/
def dlHandler (keyQ : Option String) (signed : String → Nat → String → Option String) :
    HttpRes :=
  match keyQ with
  | none => ⟨400, "Missing key", none⟩
  | some k =>
    if k = "" then ⟨400, "Missing key", none⟩
    else
      match signed k 60 (dlNiceName k) with
      | none => ⟨404, "File not found", none⟩
      | some u => ⟨302, "", some u⟩

-- Sanity checks.
example : dlNiceName "uploads/report__1700000000000.pdf" = "report" := by decide
example :
    dlHandler (some "uploads/report__1700000000000.pdf")
      (fun _ _ dn => some ("https://signed.example/" ++ dn)) =
    ⟨302, "", some "https://signed.example/report"⟩ := by decide
example : dlHandler none (fun _ _ _ => none) = ⟨400, "Missing key", none⟩ := by decide
example :
    runFiles [⟨"a.pdf", "u", "k", "t", 3, 7, "d"⟩, ⟨"a.pdf", "u", "k", "t", 3, 7, "d"⟩,
      ⟨"b.pdf", "u2", "k2", "t", 3, 9, "d2"⟩] =
    [⟨"b.pdf", "u2", "k2", "t", 3, 9, "d2"⟩, ⟨"a.pdf", "u", "k", "t", 3, 7, "d"⟩] := by
  decide

/-! ## Supporting lemmas: splitting strings at a distinguished character -/

/-- If a character occurs in neither left part, the decomposition of a list
around its first occurrence is unique. -/
theorem append_cons_inj_of_not_mem {c : Char} :
    ∀ (l₁ l₂ : List Char) {r₁ r₂ : List Char},
      l₁ ++ c :: r₁ = l₂ ++ c :: r₂ → c ∉ l₁ → c ∉ l₂ → l₁ = l₂ ∧ r₁ = r₂ := by
  intro l₁
  induction l₁ with
  | nil =>
    intro l₂ r₁ r₂ h _ h₂
    cases l₂ with
    | nil => simpa using h
    | cons b t =>
      simp only [List.nil_append, List.cons_append, List.cons.injEq] at h
      exact absurd (h.1 ▸ List.mem_cons_self b t) h₂
  | cons a t ih =>
    intro l₂ r₁ r₂ h h₁ h₂
    cases l₂ with
    | nil =>
      simp only [List.nil_append, List.cons_append, List.cons.injEq] at h
      exact absurd (h.1.symm ▸ List.mem_cons_self a t) h₁
    | cons b t₂ =>
      simp only [List.cons_append, List.cons.injEq] at h
      have := ih t₂ h.2 (fun hc => h₁ (List.mem_cons_of_mem a hc))
        (fun hc => h₂ (List.mem_cons_of_mem b hc))
      exact ⟨by simp [h.1, this.1], this.2⟩

/-! ## Supporting lemmas: decimal representations of `Nat` -/

theorem digitChar_isDigit : ∀ m, m < 10 → (Nat.digitChar m).isDigit = true := by decide

theorem toDigitsCore_digits :
    ∀ (fuel n : Nat) (acc : List Char), (∀ c ∈ acc, c.isDigit = true) →
      ∀ c ∈ Nat.toDigitsCore 10 fuel n acc, c.isDigit = true := by
  intro fuel
  induction fuel with
  | zero =>
    intro n acc hacc c hc
    rw [Nat.toDigitsCore] at hc
    exact hacc c hc
  | succ fuel ih =>
    intro n acc hacc c hc
    rw [Nat.toDigitsCore] at hc
    by_cases h : n / 10 = 0
    · simp only [h, if_pos] at hc
      rcases List.mem_cons.mp hc with h1 | h1
      · exact h1 ▸ digitChar_isDigit _ (Nat.mod_lt _ (by omega))
      · exact hacc c h1
    · simp only [h, if_neg, if_false] at hc
      refine ih (n / 10) _ ?_ c hc
      intro d hd
      rcases List.mem_cons.mp hd with h1 | h1
      · exact h1 ▸ digitChar_isDigit _ (Nat.mod_lt _ (by omega))
      · exact hacc d h1

/-- Every character of `Nat.repr n` is a decimal digit. -/
theorem repr_digits (n : Nat) : ∀ c ∈ (Nat.repr n).data, c.isDigit = true := by
  intro c hc
  have : (Nat.repr n).data = Nat.toDigitsCore 10 (n + 1) n [] := rfl
  rw [this] at hc
  exact toDigitsCore_digits (n + 1) n [] (by simp) c hc

theorem bar_not_mem_repr (n : Nat) : '|' ∉ (Nat.repr n).data := by
  intro h
  have := repr_digits n _ h
  simp [Char.isDigit] at this

theorem dot_not_mem_repr (n : Nat) : '.' ∉ (Nat.repr n).data := by
  intro h
  have := repr_digits n _ h
  simp [Char.isDigit] at this

theorem underscore_not_mem_repr (n : Nat) : '_' ∉ (Nat.repr n).data := by
  intro h
  have := repr_digits n _ h
  simp [Char.isDigit] at this

/-- The numeric value of a decimal digit character. -/
def digitVal (c : Char) : Nat := c.toNat - '0'.toNat

/-- The value of a list of decimal digit characters, most significant first. -/
def digitsVal (l : List Char) : Nat := l.foldl (fun a c => 10 * a + digitVal c) 0

theorem digitVal_digitChar : ∀ m, m < 10 → digitVal (Nat.digitChar m) = m := by decide

theorem toDigitsCore_shift :
    ∀ (fuel n : Nat) (acc : List Char),
      Nat.toDigitsCore 10 fuel n acc = Nat.toDigitsCore 10 fuel n [] ++ acc := by
  intro fuel
  induction fuel with
  | zero => intro n acc; rw [Nat.toDigitsCore, Nat.toDigitsCore]; simp
  | succ fuel ih =>
    intro n acc
    rw [Nat.toDigitsCore]
    conv_rhs => rw [Nat.toDigitsCore]
    by_cases h : n / 10 = 0
    · simp [h]
    · simp only [h, if_false, if_neg]
      rw [ih (n / 10) [Nat.digitChar (n % 10)],
        ih (n / 10) (Nat.digitChar (n % 10) :: acc)]
      simp

theorem digitsVal_append_one (l : List Char) (c : Char) :
    digitsVal (l ++ [c]) = 10 * digitsVal l + digitVal c := by
  simp [digitsVal, List.foldl_append]

theorem toDigitsCore_val :
    ∀ (fuel n : Nat), n < fuel → digitsVal (Nat.toDigitsCore 10 fuel n []) = n := by
  intro fuel
  induction fuel with
  | zero => omega
  | succ fuel ih =>
    intro n hn
    rw [Nat.toDigitsCore]
    by_cases h : n / 10 = 0
    · simp only [h, if_pos]
      have h10 : n < 10 := by omega
      have : digitsVal [Nat.digitChar (n % 10)] = digitVal (Nat.digitChar (n % 10)) := by
        simp [digitsVal]
      rw [this, digitVal_digitChar _ (Nat.mod_lt _ (by omega))]
      omega
    · simp only [h, if_false, if_neg]
      rw [toDigitsCore_shift, digitsVal_append_one,
        ih (n / 10) (by omega), digitVal_digitChar _ (Nat.mod_lt _ (by omega))]
      omega

/-- Decimal representation is injective. -/
theorem repr_inj {m n : Nat} (h : Nat.repr m = Nat.repr n) : m = n := by
  have hm : digitsVal (Nat.repr m).data = m := toDigitsCore_val (m + 1) m (by omega)
  have hn : digitsVal (Nat.repr n).data = n := toDigitsCore_val (n + 1) n (by omega)
  rw [← hm, ← hn, h]

/-! ## Supporting lemmas: the dedup composite string is injective -/

/-- `${k}|${s}|${u}` determines `(k, s, u)`: the two numeric segments contain
no `|`, so the two separator bars are recovered from the right. -/
theorem composite_inj {k₁ k₂ : String} {s₁ u₁ s₂ u₂ : Nat}
    (h : k₁ ++ "|" ++ Nat.repr s₁ ++ "|" ++ Nat.repr u₁ =
      k₂ ++ "|" ++ Nat.repr s₂ ++ "|" ++ Nat.repr u₂) :
    k₁ = k₂ ∧ s₁ = s₂ ∧ u₁ = u₂ := by
  have hd : k₁.data ++ '|' :: ((Nat.repr s₁).data ++ '|' :: (Nat.repr u₁).data) =
      k₂.data ++ '|' :: ((Nat.repr s₂).data ++ '|' :: (Nat.repr u₂).data) := by
    have := congrArg String.data h
    simpa [String.data_append, List.append_assoc] using this
  have hrev := congrArg List.reverse hd
  simp only [List.reverse_append, List.reverse_cons, List.append_assoc,
    List.singleton_append, List.cons_append, List.nil_append] at hrev
  have h1 := append_cons_inj_of_not_mem _ _ hrev
    (fun hc => bar_not_mem_repr u₁ (List.mem_reverse.mp hc))
    (fun hc => bar_not_mem_repr u₂ (List.mem_reverse.mp hc))
  have h2 := append_cons_inj_of_not_mem _ _ h1.2
    (fun hc => bar_not_mem_repr s₁ (List.mem_reverse.mp hc))
    (fun hc => bar_not_mem_repr s₂ (List.mem_reverse.mp hc))
  refine ⟨String.ext (List.reverse_inj.mp h2.2), ?_, ?_⟩
  · exact repr_inj (String.ext (List.reverse_inj.mp h2.1))
  · exact repr_inj (String.ext (List.reverse_inj.mp h1.1))

/-! ## Supporting lemmas: the `seen`-set dedup loop -/

theorem dedupGo_not_seen {α : Type} (keyOf : α → String) :
    ∀ (l : List α) (seen : List String), ∀ y ∈ dedupGo keyOf seen l, keyOf y ∉ seen := by
  intro l
  induction l with
  | nil => intro seen y hy; simp [dedupGo] at hy
  | cons it rest ih =>
    intro seen y hy
    rw [dedupGo] at hy
    by_cases h : keyOf it ∈ seen
    · rw [if_pos h] at hy
      exact ih seen y hy
    · rw [if_neg h] at hy
      rcases List.mem_cons.mp hy with h1 | h1
      · exact h1 ▸ h
      · intro hmem
        exact ih (keyOf it :: seen) y h1 (List.mem_cons_of_mem _ hmem)

theorem countP_dedupGo_zero {α : Type} (keyOf : α → String) (l : List α)
    (seen : List String) (x : α) (hx : keyOf x ∈ seen) :
    (dedupGo keyOf seen l).countP (fun y => decide (keyOf y = keyOf x)) = 0 := by
  rw [List.countP_eq_zero]
  intro y hy
  simp only [decide_eq_true_eq]
  intro hk
  exact dedupGo_not_seen keyOf l seen y hy (hk ▸ hx)

theorem countP_dedupGo_one {α : Type} (keyOf : α → String) :
    ∀ (l : List α) (seen : List String) (x : α), keyOf x ∉ seen →
      (∃ y ∈ l, keyOf y = keyOf x) →
      (dedupGo keyOf seen l).countP (fun y => decide (keyOf y = keyOf x)) = 1 := by
  intro l
  induction l with
  | nil => intro seen x _ hex; simp at hex
  | cons it rest ih =>
    intro seen x hx hex
    rw [dedupGo]
    by_cases h : keyOf it ∈ seen
    · rw [if_pos h]
      have hne : keyOf it ≠ keyOf x := fun he => hx (he ▸ h)
      rcases hex with ⟨y, hy, hk⟩
      rcases List.mem_cons.mp hy with h1 | h1
      · exact absurd (h1 ▸ hk) hne
      · exact ih seen x hx ⟨y, h1, hk⟩
    · rw [if_neg h]
      rw [List.countP_cons]
      by_cases he : keyOf it = keyOf x
      · rw [countP_dedupGo_zero keyOf rest (keyOf it :: seen) x
          (he ▸ List.mem_cons_self _ _)]
        simp [he]
      · have hx2 : keyOf x ∉ keyOf it :: seen := by
          intro hmem
          rcases List.mem_cons.mp hmem with h1 | h1
          · exact he h1.symm
          · exact hx h1
        rcases hex with ⟨y, hy, hk⟩
        rcases List.mem_cons.mp hy with h1 | h1
        · exact absurd (h1 ▸ hk) he
        · rw [ih (keyOf it :: seen) x hx2 ⟨y, h1, hk⟩]
          simp [he]

/-! ## Supporting lemmas: characters produced by the sanitizer -/

theorem sanitizeGo_word :
    ∀ (l : List Char) (b : Bool), ∀ c ∈ sanitizeGo b l, isWordChar c = true := by
  intro l
  induction l with
  | nil => intro b c hc; simp [sanitizeGo] at hc
  | cons a rest ih =>
    intro b c hc
    rw [sanitizeGo] at hc
    by_cases hw : isWordChar a
    · rw [if_pos hw] at hc
      rcases List.mem_cons.mp hc with h1 | h1
      · exact h1 ▸ hw
      · exact ih false c h1
    · rw [if_neg hw] at hc
      cases b with
      | true =>
        simp only [if_true] at hc
        exact ih true c hc
      | false =>
        simp only [Bool.false_eq_true, if_false] at hc
        rcases List.mem_cons.mp hc with h1 | h1
        · exact h1 ▸ (by decide)
        · exact ih true c h1

theorem word_ne_dot_slash {c : Char} (h : isWordChar c = true) : c ≠ '.' ∧ c ≠ '/' := by
  constructor
  · rintro rfl; exact absurd h (by decide)
  · rintro rfl; exact absurd h (by decide)

theorem sanitize_no_dot (s : String) : '.' ∉ (sanitize s).data := by
  intro h
  exact (word_ne_dot_slash (sanitizeGo_word s.data false _ h)).1 rfl

theorem sanitize_no_slash (s : String) : '/' ∉ (sanitize s).data := by
  intro h
  exact (word_ne_dot_slash (sanitizeGo_word s.data false _ h)).2 rfl

/-! ## Supporting lemmas: `path.extname` structure -/

theorem takeWhile_append_sat {p : Char → Bool} :
    ∀ (xs : List Char) (y : Char) (ys : List Char), (∀ x ∈ xs, p x = true) →
      p y = false → List.takeWhile p (xs ++ y :: ys) = xs := by
  intro xs
  induction xs with
  | nil => intro y ys _ hy; simp [List.takeWhile_cons, hy]
  | cons a t ih =>
    intro y ys hall hy
    have ha : p a = true := hall a (List.mem_cons_self a t)
    simp only [List.cons_append, List.takeWhile_cons, ha, if_true]
    rw [ih y ys (fun x hx => hall x (List.mem_cons_of_mem a hx)) hy]

theorem dropWhile_no_sat {p : Char → Bool} (l : List Char)
    (h : ∀ x ∈ l, p x = false) : List.dropWhile p l = l := by
  cases l with
  | nil => rfl
  | cons a t =>
    rw [List.dropWhile_cons]
    simp [h a (List.mem_cons_self a t)]

theorem stripTrailingSlashes_no_slash (l : List Char) (h : '/' ∉ l) :
    stripTrailingSlashes l = l := by
  unfold stripTrailingSlashes
  rw [dropWhile_no_sat]
  · exact l.reverse_reverse
  · intro x hx
    have : x ≠ '/' := fun he => h (he ▸ List.mem_reverse.mp hx)
    simpa using this

theorem lastComponent_no_slash (l : List Char) (h : '/' ∉ l) :
    lastComponent l = l := by
  unfold lastComponent
  rw [List.takeWhile_eq_self_iff.mpr]
  · exact l.reverse_reverse
  · intro x hx
    have : x ≠ '/' := fun he => h (he ▸ List.mem_reverse.mp hx)
    simpa using this

/-- `path.extname` of a name free of dots and slashes is empty. -/
theorem extnameCore_no_dot (l : List Char) (hd : '.' ∉ l) (hs : '/' ∉ l) :
    extnameCore l = [] := by
  unfold extnameCore
  rw [stripTrailingSlashes_no_slash l hs, lastComponent_no_slash l hs]
  by_cases he : l = ['.', '.']
  · exact absurd (he ▸ (by decide : '.' ∈ ['.', '.'])) hd
  · rw [if_neg he]
    have : List.takeWhile (fun c => c != '.') l.reverse = l.reverse := by
      rw [List.takeWhile_eq_self_iff.mpr]
      intro x hx
      have : x ≠ '.' := fun heq => hd (heq ▸ List.mem_reverse.mp hx)
      simpa using this
    simp [this]

/-- `path.extname` of `front ++ "." ++ after` where `front` is nonempty and
dot/slash-free and `after` is dot/slash-free: exactly `"." ++ after`. -/
theorem extnameCore_split (front after : List Char) (hne : front ≠ [])
    (hfd : '.' ∉ front) (hfs : '/' ∉ front) (had : '.' ∉ after) (has : '/' ∉ after) :
    extnameCore (front ++ '.' :: after) = '.' :: after := by
  have hs : '/' ∉ front ++ '.' :: after := by
    intro h
    rcases List.mem_append.mp h with h1 | h1
    · exact hfs h1
    · rcases List.mem_cons.mp h1 with h2 | h2
      · exact absurd h2 (by decide)
      · exact has h2
  unfold extnameCore
  rw [stripTrailingSlashes_no_slash _ hs, lastComponent_no_slash _ hs]
  have hne2 : front ++ '.' :: after ≠ ['.', '.'] := by
    intro he
    cases front with
    | nil => exact hne rfl
    | cons a t =>
      have : a = '.' := by
        have := congrArg (fun l => l.head?) he
        simpa using this
      exact hfd (this ▸ List.mem_cons_self a t)
  rw [if_neg hne2]
  have hrev : (front ++ '.' :: after).reverse = after.reverse ++ '.' :: front.reverse := by
    simp [List.reverse_append]
  have htw : List.takeWhile (fun c => c != '.') (front ++ '.' :: after).reverse =
      after.reverse := by
    rw [hrev]
    refine takeWhile_append_sat after.reverse '.' front.reverse ?_ (by simp)
    intro x hx
    have : x ≠ '.' := fun he => had (he ▸ List.mem_reverse.mp hx)
    simpa using this
  rw [htw]
  have hlen : after.reverse.length = after.length := List.length_reverse after
  have hlong : (front ++ '.' :: after).length = front.length + 1 + after.length := by
    simp [List.length_append]
    omega
  have hfl : 1 ≤ front.length := by
    cases front with
    | nil => exact absurd rfl hne
    | cons a t => simp
  rw [if_neg]
  · simp
  · push_neg
    constructor <;> omega

/-- The output of `path.extname` is empty or a dot followed by a dot-free,
slash-free tail. -/
theorem extnameCore_structure (p : List Char) :
    extnameCore p = [] ∨
      ∃ d, extnameCore p = '.' :: d ∧ ∀ c ∈ d, c ≠ '.' ∧ c ≠ '/' := by
  unfold extnameCore
  by_cases he : lastComponent (stripTrailingSlashes p) = ['.', '.']
  · left; simp [he]
  · rw [if_neg he]
    by_cases hc : (List.takeWhile (fun c => c != '.')
        (lastComponent (stripTrailingSlashes p)).reverse).length =
          (lastComponent (stripTrailingSlashes p)).length ∨
        (List.takeWhile (fun c => c != '.')
        (lastComponent (stripTrailingSlashes p)).reverse).length + 1 =
          (lastComponent (stripTrailingSlashes p)).length
    · left; simp only [hc, if_pos]
    · right
      refine ⟨(List.takeWhile (fun c => c != '.')
        (lastComponent (stripTrailingSlashes p)).reverse).reverse,
        by simp only [hc, if_neg, if_false], ?_⟩
      intro c hcm
      have h1 : c ∈ List.takeWhile (fun c => c != '.')
          (lastComponent (stripTrailingSlashes p)).reverse := List.mem_reverse.mp hcm
      constructor
      · have := List.mem_takeWhile_imp h1
        simpa using this
      · have h2 : c ∈ (lastComponent (stripTrailingSlashes p)).reverse :=
          List.takeWhile_subset _ h1
        have h3 : c ∈ lastComponent (stripTrailingSlashes p) := List.mem_reverse.mp h2
        have h4 : c ∈ List.takeWhile (fun c => c != '/')
            (stripTrailingSlashes p).reverse := List.mem_reverse.mp h3
        have := List.mem_takeWhile_imp h4
        simpa using this

/-! ## Supporting lemmas: the `__` marker -/

theorem hasMarker_append : ∀ (x y : List Char), hasMarker (x ++ '_' :: '_' :: y) = true := by
  intro x
  induction x with
  | nil => intro y; simp [hasMarker]
  | cons c t ih =>
    intro y
    cases t with
    | nil => simp [hasMarker]
    | cons d t2 =>
      rw [List.cons_append]
      rw [show (d :: t2) ++ '_' :: '_' :: y = d :: (t2 ++ '_' :: '_' :: y) by simp]
      rw [hasMarker]
      rw [show d :: (t2 ++ '_' :: '_' :: y) = (d :: t2) ++ '_' :: '_' :: y by simp]
      rw [ih y]
      simp

/-- `split("__")[0]` of `front ++ "__" ++ rest` is `front`, provided `front`
itself contains no `"__"` and does not end in `'_'`. -/
theorem beforeMarker_append :
    ∀ (x y : List Char), hasMarker x = false → x.getLast? ≠ some '_' →
      beforeMarker (x ++ '_' :: '_' :: y) = x := by
  intro x
  induction x with
  | nil => intro y _ _; simp [beforeMarker]
  | cons c t ih =>
    intro y hm hl
    cases t with
    | nil =>
      have hc : c ≠ '_' := by
        intro he
        exact hl (by simp [he])
      simp only [List.cons_append, List.nil_append]
      rw [beforeMarker, if_neg (by simp [hc])]
      rw [show beforeMarker ('_' :: '_' :: y) = [] from by rw [beforeMarker]; simp]
    | cons d t2 =>
      rw [hasMarker] at hm
      have hm2 : hasMarker (d :: t2) = false := by
        rcases Bool.or_eq_false_iff.mp hm with ⟨_, h2⟩
        exact h2
      have hcd : (c == '_' && d == '_') = false :=
        (Bool.or_eq_false_iff.mp hm).1
      have hl2 : (d :: t2).getLast? ≠ some '_' := by
        rwa [List.getLast?_cons_cons] at hl
      rw [List.cons_append]
      rw [show (d :: t2) ++ '_' :: '_' :: y = d :: (t2 ++ '_' :: '_' :: y) by simp]
      rw [beforeMarker]
      rw [show d :: (t2 ++ '_' :: '_' :: y) = (d :: t2) ++ '_' :: '_' :: y by simp]
      rw [ih y hm2 hl2]
      simp only [hcd]
      simp

/-! ## Supporting lemmas: runs under the sanitizer -/

theorem sanitizeGo_all_word (l : List Char) (h : ∀ c ∈ l, isWordChar c = true) :
    ∀ b, sanitizeGo b l = l := by
  induction l with
  | nil => intro b; rfl
  | cons a t ih =>
    intro b
    rw [sanitizeGo, if_pos (h a (List.mem_cons_self a t))]
    rw [ih (fun c hc => h c (List.mem_cons_of_mem a hc)) false]

theorem sanitizeGo_skip_run :
    ∀ (r : List Char), (∀ c ∈ r, isWordChar c = false) →
      ∀ (z : List Char), sanitizeGo true (r ++ z) = sanitizeGo true z := by
  intro r
  induction r with
  | nil => intro _ z; rfl
  | cons a t ih =>
    intro h z
    rw [List.cons_append, sanitizeGo]
    rw [if_neg (by simp [h a (List.mem_cons_self a t)])]
    simp only [if_true]
    exact ih (fun c hc => h c (List.mem_cons_of_mem a hc)) z

theorem sanitizeGo_word_front :
    ∀ (a : List Char), (∀ c ∈ a, isWordChar c = true) →
      ∀ (z : List Char), sanitizeGo false (a ++ z) = a ++ sanitizeGo false z := by
  intro a
  induction a with
  | nil => intro _ z; rfl
  | cons c t ih =>
    intro h z
    rw [List.cons_append, sanitizeGo, if_pos (h c (List.mem_cons_self c t))]
    rw [ih (fun x hx => h x (List.mem_cons_of_mem c hx)) z]
    rfl

/-! ## Supporting lemmas: the upload loop -/

/-- The sequence of `put` calls the loop performs for a list of files,
returning the final backend state or the first error. -/
def runPuts {σ : Type} (put : σ → String → List Nat → String → Except String σ)
    (lookup : String → Option String) (now : Nat) :
    σ → List UploadedFile → Except String σ
  | st, [] => Except.ok st
  | st, f :: rest =>
    match put st (mkKey f.originalname now) f.buffer (uploadContentType lookup f) with
    | Except.ok stN => runPuts put lookup now stN rest
    | Except.error e => Except.error e

theorem uploadGo_of_runPuts {σ : Type}
    (put : σ → String → List Nat → String → Except String σ)
    (lookup : String → Option String) (now : Nat) :
    ∀ (pre : List UploadedFile) (st stN : σ) (acc : List String)
      (fs : List UploadedFile), runPuts put lookup now st pre = Except.ok stN →
      uploadGo put lookup now st acc (pre ++ fs) =
        uploadGo put lookup now stN
          (acc ++ pre.map (fun f => mkKey f.originalname now)) fs := by
  intro pre
  induction pre with
  | nil =>
    intro st stN acc fs h
    rw [runPuts] at h
    cases h
    simp
  | cons f rest ih =>
    intro st stN acc fs h
    rw [runPuts] at h
    rw [List.cons_append, uploadGo]
    cases hp : put st (mkKey f.originalname now) f.buffer (uploadContentType lookup f) with
    | error e => rw [hp] at h; cases h
    | ok stM =>
      rw [hp] at h
      simp only []
      rw [ih stM stN (acc ++ [mkKey f.originalname now]) fs h]
      simp

theorem uploadGo_files_keys {σ : Type}
    (put : σ → String → List Nat → String → Except String σ)
    (lookup : String → Option String) (now : Nat) :
    ∀ (fs : List UploadedFile) (st : σ) (acc ks : List String),
      (uploadGo put lookup now st acc fs).2.files = some ks →
      ks = acc ++ fs.map (fun f => mkKey f.originalname now) := by
  intro fs
  induction fs with
  | nil =>
    intro st acc ks h
    rw [uploadGo] at h
    simp only [Option.some.injEq] at h
    simp [← h]
  | cons f rest ih =>
    intro st acc ks h
    rw [uploadGo] at h
    cases hp : put st (mkKey f.originalname now) f.buffer (uploadContentType lookup f) with
    | error e => rw [hp] at h; simp at h
    | ok stN =>
      rw [hp] at h
      have := ih stN (acc ++ [mkKey f.originalname now]) ks h
      simpa using this

/-! ## Supporting lemmas: key injectivity within a batch -/

theorem digit_ne_dot {c : Char} (h : c.isDigit = true) : c ≠ '.' := by
  rintro rfl
  exact absurd h (by decide)

theorem dot_not_mem_body {B T : List Char} (hB : ∀ c ∈ B, isWordChar c = true)
    (hT : ∀ c ∈ T, c.isDigit = true) : '.' ∉ B ++ '_' :: '_' :: T := by
  intro h
  rcases List.mem_append.mp h with h1 | h1
  · exact (word_ne_dot_slash (hB _ h1)).1 rfl
  · rcases List.mem_cons.mp h1 with h2 | h2
    · exact absurd h2 (by decide)
    · rcases List.mem_cons.mp h2 with h3 | h3
      · exact absurd h3 (by decide)
      · exact digit_ne_dot (hT _ h3) rfl

/-- Inside one batch (a fixed digit string `T` for the timestamp), the key
body `base ++ "__" ++ T ++ ext` determines `(base, ext)`: `base` is made of
word characters (hence dot-free) and `ext` is empty or starts with the only
dot of the body. -/
theorem key_body_inj {T B₁ B₂ E₁ E₂ : List Char}
    (hT : ∀ c ∈ T, c.isDigit = true)
    (hB₁ : ∀ c ∈ B₁, isWordChar c = true) (hB₂ : ∀ c ∈ B₂, isWordChar c = true)
    (hE₁ : E₁ = [] ∨ ∃ d, E₁ = '.' :: d ∧ ∀ c ∈ d, c ≠ '.' ∧ c ≠ '/')
    (hE₂ : E₂ = [] ∨ ∃ d, E₂ = '.' :: d ∧ ∀ c ∈ d, c ≠ '.' ∧ c ≠ '/')
    (h : B₁ ++ '_' :: '_' :: (T ++ E₁) = B₂ ++ '_' :: '_' :: (T ++ E₂)) :
    B₁ = B₂ ∧ E₁ = E₂ := by
  rcases hE₁ with hE₁ | ⟨d₁, hE₁, hd₁⟩ <;> rcases hE₂ with hE₂ | ⟨d₂, hE₂, hd₂⟩
  · subst hE₁; subst hE₂
    simp only [List.append_nil] at h
    exact ⟨List.append_cancel_right h, rfl⟩
  · subst hE₁; subst hE₂
    exfalso
    have hmem : '.' ∈ B₂ ++ '_' :: '_' :: (T ++ '.' :: d₂) := by
      refine List.mem_append_right _ ?_
      refine List.mem_cons_of_mem _ (List.mem_cons_of_mem _ ?_)
      exact List.mem_append_right _ (List.mem_cons_self _ _)
    rw [← h] at hmem
    simp only [List.append_nil] at hmem
    exact dot_not_mem_body hB₁ hT hmem
  · subst hE₁; subst hE₂
    exfalso
    have hmem : '.' ∈ B₁ ++ '_' :: '_' :: (T ++ '.' :: d₁) := by
      refine List.mem_append_right _ ?_
      refine List.mem_cons_of_mem _ (List.mem_cons_of_mem _ ?_)
      exact List.mem_append_right _ (List.mem_cons_self _ _)
    rw [h] at hmem
    simp only [List.append_nil] at hmem
    exact dot_not_mem_body hB₂ hT hmem
  · subst hE₁; subst hE₂
    have hre : ∀ (B : List Char), B ++ '_' :: '_' :: (T ++ '.' :: (d₁ : List Char)) =
        (B ++ '_' :: '_' :: T) ++ '.' :: d₁ := by
      intro B; simp
    rw [hre B₁] at h
    rw [show B₂ ++ '_' :: '_' :: (T ++ '.' :: d₂) = (B₂ ++ '_' :: '_' :: T) ++ '.' :: d₂
      by simp] at h
    have := append_cons_inj_of_not_mem _ _ h (dot_not_mem_body hB₁ hT)
      (dot_not_mem_body hB₂ hT)
    refine ⟨List.append_cancel_right this.1, by rw [this.2]⟩

/-- `mkKey` with the batch's shared timestamp determines and is determined by
the `(sanitized base, extension)` pair. -/
theorem mkKey_inj (now : Nat) (f g : String) :
    mkKey f now = mkKey g now ↔
      (sanitize (basenameExt f (extname f)) = sanitize (basenameExt g (extname g)) ∧
        extname f = extname g) := by
  constructor
  · intro h
    have hd := congrArg String.data h
    simp only [mkKey, String.data_append] at hd
    have h2 : (sanitize (basenameExt f (extname f))).data ++ '_' :: '_' ::
        ((Nat.repr now).data ++ (extname f).data) =
        (sanitize (basenameExt g (extname g))).data ++ '_' :: '_' ::
        ((Nat.repr now).data ++ (extname g).data) := by
      simpa [List.append_assoc, List.cons_append, List.cons.injEq] using hd
    have hT : ∀ c ∈ (Nat.repr now).data, c.isDigit = true := repr_digits now
    have hBf : ∀ c ∈ (sanitize (basenameExt f (extname f))).data, isWordChar c = true :=
      fun c hc => sanitizeGo_word _ false c hc
    have hBg : ∀ c ∈ (sanitize (basenameExt g (extname g))).data, isWordChar c = true :=
      fun c hc => sanitizeGo_word _ false c hc
    have hEf : (extname f).data = [] ∨
        ∃ d, (extname f).data = '.' :: d ∧ ∀ c ∈ d, c ≠ '.' ∧ c ≠ '/' :=
      extnameCore_structure f.data
    have hEg : (extname g).data = [] ∨
        ∃ d, (extname g).data = '.' :: d ∧ ∀ c ∈ d, c ≠ '.' ∧ c ≠ '/' :=
      extnameCore_structure g.data
    have := key_body_inj hT hBf hBg hEf hEg h2
    exact ⟨String.ext this.1, String.ext this.2⟩
  · intro h
    rw [mkKey, mkKey, h.1, h.2]

/-! ## Supporting lemmas: decoding an encoded name -/

/-- The basename part of `mkKey` — what a listing of `uploads/` later sees as
`entry.name` for an object stored by the upload handler. -/
def encodedName (originalname : String) (now : Nat) : String :=
  sanitize (basenameExt originalname (extname originalname))
    ++ "__" ++ Nat.repr now ++ extname originalname

theorem mkKey_eq_encodedName (originalname : String) (now : Nat) :
    mkKey originalname now = "uploads/" ++ encodedName originalname now := by
  rw [mkKey, encodedName]
  simp [String.append_assoc]

theorem digit_ne_slash {c : Char} (h : c.isDigit = true) : c ≠ '/' := by
  rintro rfl
  exact absurd h (by decide)

theorem slash_not_mem_body {B T : List Char} (hB : ∀ c ∈ B, isWordChar c = true)
    (hT : ∀ c ∈ T, c.isDigit = true) : '/' ∉ B ++ '_' :: '_' :: T := by
  intro h
  rcases List.mem_append.mp h with h1 | h1
  · exact (word_ne_dot_slash (hB _ h1)).2 rfl
  · rcases List.mem_cons.mp h1 with h2 | h2
    · exact absurd h2 (by decide)
    · rcases List.mem_cons.mp h2 with h3 | h3
      · exact absurd h3 (by decide)
      · exact digit_ne_slash (hT _ h3) rfl

theorem encodedName_data (originalname : String) (now : Nat) :
    (encodedName originalname now).data =
      (sanitize (basenameExt originalname (extname originalname))).data ++
        '_' :: '_' :: ((Nat.repr now).data ++ (extname originalname).data) := by
  simp [encodedName, String.data_append, List.append_assoc]

/-- Projection helper: `extname` unfolds to `extnameCore` on the data. -/
theorem extname_data (s : String) : (extname s).data = extnameCore s.data := rfl

/-- `path.extname` of the stored name recovers exactly the original
extension: the sanitized base and the digits contribute no dot. -/
theorem extname_encodedName (originalname : String) (now : Nat) :
    extname (encodedName originalname now) = extname originalname := by
  have hB : ∀ c ∈ (sanitize (basenameExt originalname (extname originalname))).data,
      isWordChar c = true := fun c hc => sanitizeGo_word _ false c hc
  have hT : ∀ c ∈ (Nat.repr now).data, c.isDigit = true := repr_digits now
  apply String.ext
  simp only [extname_data, encodedName_data]
  rcases extnameCore_structure originalname.data with hE | ⟨d, hE, hd⟩
  · rw [hE, List.append_nil]
    exact extnameCore_no_dot _ (dot_not_mem_body hB hT) (slash_not_mem_body hB hT)
  · rw [hE]
    rw [show (sanitize (basenameExt originalname (extname originalname))).data ++
        '_' :: '_' :: ((Nat.repr now).data ++ '.' :: d) =
        ((sanitize (basenameExt originalname (extname originalname))).data ++
          '_' :: '_' :: (Nat.repr now).data) ++ '.' :: d by simp]
    exact extnameCore_split _ d (by simp) (dot_not_mem_body hB hT)
      (slash_not_mem_body hB hT)
      (fun hc => (hd '.' hc).1 rfl) (fun hc => (hd '/' hc).2 rfl)

/-- Projection helper for literal string construction. -/
theorem mk_data (l : List Char) : (⟨l⟩ : String).data = l := rfl

/-- Decoding the stored name recovers `sanitizedBase ++ ext`, provided the
sanitized base neither contains `"__"` nor ends in `'_'`. -/
theorem decodeDisplay_encodedName (originalname : String) (now : Nat)
    (hm : hasMarker (sanitize (basenameExt originalname (extname originalname))).data
      = false)
    (hl : (sanitize (basenameExt originalname (extname originalname))).data.getLast?
      ≠ some '_') :
    decodeDisplay (encodedName originalname now) =
      sanitize (basenameExt originalname (extname originalname))
        ++ extname originalname := by
  rw [decodeDisplay]
  rw [if_pos (by rw [encodedName_data]; exact hasMarker_append _ _)]
  rw [extname_encodedName]
  congr 1
  apply String.ext
  rw [mk_data, encodedName_data]
  exact beforeMarker_append _ _ hm hl

/-! ## Claim theorems -/

/-- Claim C1, counterexample.  For the claim's own example key
`uploads/report__1700000000000.pdf`, the handler's forced attachment name is
`"report"` — the code (line 176) never re-appends the extension, so the
claimed download filename `"report.pdf"` is wrong.  With a backend whose
signed URL records the requested attachment name, the redirect target shows
the extension-less name. -/
theorem C1_counterexample :
    dlHandler (some "uploads/report__1700000000000.pdf")
        (fun _ _ dn => some ("https://signed.example/" ++ dn)) =
      ⟨302, "", some "https://signed.example/report"⟩ ∧
    dlNiceName "uploads/report__1700000000000.pdf" ≠ "report.pdf" := by
  exact ⟨by decide, by decide⟩

/-- Claim C1 (amended): `GET /api/dl?key=k` answers `400` when `key` is
absent; otherwise it asks the backend for a signed URL valid for 60 seconds
whose forced attachment filename is the substring of `basename(k)` before the
first `"__"` WITHOUT the extension re-appended (the example key yields
`"report"`), answering `302` to that URL on success and `404` when the
backend cannot produce one. -/
theorem C1_dl_redirect (signed : String → Nat → String → Option String) (k u : String) :
    dlHandler none signed = ⟨400, "Missing key", none⟩ ∧
    (k ≠ "" → signed k 60 (dlNiceName k) = some u →
      dlHandler (some k) signed = ⟨302, "", some u⟩) ∧
    (k ≠ "" → signed k 60 (dlNiceName k) = none →
      dlHandler (some k) signed = ⟨404, "File not found", none⟩) ∧
    dlNiceName "uploads/report__1700000000000.pdf" = "report" := by
  refine ⟨rfl, ?_, ?_, by decide⟩
  · intro hk hs
    rw [dlHandler, if_neg hk, hs]
  · intro hk hs
    rw [dlHandler, if_neg hk, hs]

/-- Claim C1 witness: the redirect branch at a concrete key and backend. -/
theorem C1_dl_redirect_witness :
    dlHandler (some "uploads/x__1.pdf") (fun _ _ dn => some ("s:" ++ dn)) =
      ⟨302, "", some "s:x"⟩ :=
  (C1_dl_redirect (fun _ _ dn => some ("s:" ++ dn)) "uploads/x__1.pdf" "s:x").2.1
    (by decide) (by decide)

/-- The sanitizer exactly as claim C2 words it (a spec-side definition, kept
for comparison with the code's): every individual character outside
`[A-Za-z0-9_-]` becomes one underscore, so `k` consecutive disallowed
characters would yield `k` underscores. -/
def sanitizeClaimed (s : String) : String :=
  ⟨s.data.map (fun c => if isWordChar c then c else '_')⟩

/-- Claim C2, counterexample.  For `"a  b.txt"` (two consecutive spaces) the
code's regex `/[^\w\-]+/g` collapses the whole run to ONE underscore: the
stored key is `uploads/a_b__7.txt`, while the claim's per-character
replacement predicts `uploads/a__b__7.txt`. -/
theorem C2_counterexample :
    mkKey "a  b.txt" 7 = "uploads/a_b__7.txt" ∧
    "uploads/" ++ sanitizeClaimed (basenameExt "a  b.txt" (extname "a  b.txt"))
        ++ "__" ++ Nat.repr 7 ++ extname "a  b.txt" = "uploads/a__b__7.txt" ∧
    mkKey "a  b.txt" 7 ≠
      "uploads/" ++ sanitizeClaimed (basenameExt "a  b.txt" (extname "a  b.txt"))
        ++ "__" ++ Nat.repr 7 ++ extname "a  b.txt" := by
  exact ⟨by decide, by decide, by decide⟩

/-- Claim C2 (amended): the stored key is
`"uploads/" ++ sanitize(base(n)) ++ "__" ++ t ++ ext(n)` where `sanitize`
replaces every MAXIMAL RUN of consecutive characters outside `[A-Za-z0-9_-]`
with a single underscore (`k` consecutive disallowed characters yield one
underscore, not `k`). -/
theorem C2_key_formula (n : String) (t : Nat) (a r b : List Char)
    (ha : ∀ c ∈ a, isWordChar c = true) (hb : ∀ c ∈ b, isWordChar c = true)
    (hr : r ≠ []) (hrbad : ∀ c ∈ r, isWordChar c = false) :
    mkKey n t = "uploads/" ++ sanitize (basenameExt n (extname n))
        ++ "__" ++ Nat.repr t ++ extname n ∧
    sanitize ⟨a ++ r ++ b⟩ = ⟨a ++ '_' :: b⟩ := by
  refine ⟨rfl, ?_⟩
  apply String.ext
  rw [show (sanitize ⟨a ++ r ++ b⟩).data = sanitizeGo false (a ++ r ++ b) from rfl]
  rw [mk_data, List.append_assoc]
  rw [sanitizeGo_word_front a ha (r ++ b)]
  congr 1
  cases r with
  | nil => exact absurd rfl hr
  | cons c rt =>
    rw [List.cons_append, sanitizeGo]
    rw [if_neg (by simp [hrbad c (List.mem_cons_self c rt)])]
    simp only [Bool.false_eq_true, if_false]
    rw [sanitizeGo_skip_run rt (fun x hx => hrbad x (List.mem_cons_of_mem c hx)) b]
    rw [sanitizeGo_all_word b hb true]

/-- Claim C2 witness: the run `" /"` between word characters collapses to a
single underscore. -/
theorem C2_key_formula_witness :
    sanitize ⟨['x'] ++ [' ', '/'] ++ ['y']⟩ = ⟨['x'] ++ '_' :: ['y']⟩ :=
  (C2_key_formula "x /y.txt" 7 ['x'] [' ', '/'] ['y'] (by decide) (by decide)
    (by decide) (by decide)).2

/-- Claim C3, counterexample.  A two-file batch whose second `put` fails:
the request answers `500` with the backend's message and writes no further
file — but the backend state after the request is `["uploads/a__5.txt"]`,
not the pre-batch empty state the claim requires ("files written before the
failing one do not persist" is false: nothing is rolled back). -/
theorem C3_counterexample :
    (runUpload (fun (st : List String) k _ _ =>
        if k = "uploads/b__5.txt" then Except.error "boom" else Except.ok (st ++ [k]))
      (fun _ => none) [] [⟨"a.txt", none, []⟩, ⟨"b.txt", none, []⟩] 5) =
      (["uploads/a__5.txt"], ⟨500, false, none, none, some "boom"⟩) ∧
    (["uploads/a__5.txt"] : List String) ≠ [] := by
  exact ⟨by decide, by decide⟩

/-- Claim C3 (amended): when a `put` fails, the batch aborts as one request:
the response is `500` carrying the backend's error message and none of the
remaining files is written — but there is no rollback: the backend is left
exactly in the state produced by the successful earlier writes. -/
theorem C3_batch_abort {σ : Type} (put : σ → String → List Nat → String → Except String σ)
    (lookup : String → Option String) (st₀ st₁ : σ) (pre post : List UploadedFile)
    (f : UploadedFile) (now : Nat) (m : String)
    (hpre : runPuts put lookup now st₀ pre = Except.ok st₁)
    (hf : put st₁ (mkKey f.originalname now) f.buffer (uploadContentType lookup f) =
      Except.error m) :
    runUpload put lookup st₀ (pre ++ f :: post) now =
      (st₁, ⟨500, false, none, none, some m⟩) := by
  rw [runUpload, if_neg (by simp)]
  rw [uploadGo_of_runPuts put lookup now pre st₀ st₁ [] (f :: post) hpre]
  rw [uploadGo, hf]

/-- Claim C3 witness: the abort at a concrete failing batch. -/
theorem C3_batch_abort_witness :
    runUpload (fun (st : List String) k _ _ =>
        if k = "uploads/b__5.txt" then Except.error "boom" else Except.ok (st ++ [k]))
      (fun _ => none) [] ([⟨"a.txt", none, []⟩] ++ ⟨"b.txt", none, []⟩ :: []) 5 =
      (["uploads/a__5.txt"], ⟨500, false, none, none, some "boom"⟩) :=
  C3_batch_abort (fun (st : List String) k _ _ =>
      if k = "uploads/b__5.txt" then Except.error "boom" else Except.ok (st ++ [k]))
    (fun _ => none) [] ["uploads/a__5.txt"] [⟨"a.txt", none, []⟩] []
    ⟨"b.txt", none, []⟩ 5 "boom" rfl rfl

/-- Claim C4, counterexample.  The zero-file branch (line 54) answers
`res.json({ ok:true, count:0 })`: status `200`, `ok:true`, `count` `0` — but
there is NO `files` field at all in the body, so "an empty file list in the
response body" is false. -/
theorem C4_counterexample :
    (runUpload (fun (st : List String) k _ _ => Except.ok (st ++ [k])) (fun _ => none)
        [] [] 5).2 = ⟨200, true, some 0, none, none⟩ ∧
    (runUpload (fun (st : List String) k _ _ => Except.ok (st ++ [k])) (fun _ => none)
        [] [] 5).2.files ≠ some [] := by
  exact ⟨by decide, by decide⟩

/-- Claim C4 (amended): a zero-file `POST /api/upload` succeeds with `200`,
`ok:true` and `count` equal to `0`; the response body contains no `files`
field (rather than an explicit empty list), and the backend state is
untouched. -/
theorem C4_zero_files {σ : Type} (put : σ → String → List Nat → String → Except String σ)
    (lookup : String → Option String) (st : σ) (now : Nat) :
    runUpload put lookup st [] now = (st, ⟨200, true, some 0, none, none⟩) := rfl

/-- Claim C5, counterexample.  For `f = "a__b.txt"` (a legal filename whose
base survives sanitization as `"a__b"`), the stored name is
`"a__b__7.txt"` and decoding splits at the FIRST `"__"`: the display name is
`"a.txt"`, not `sanitize(base(f)) ++ ext(f) = "a__b.txt"`. -/
theorem C5_counterexample :
    decodeDisplay (encodedName "a__b.txt" 7) = "a.txt" ∧
    sanitize (basenameExt "a__b.txt" (extname "a__b.txt")) ++ extname "a__b.txt" =
      "a__b.txt" ∧
    ("a.txt" : String) ≠ "a__b.txt" := by
  exact ⟨by decide, by decide, by decide⟩

/-- Claim C5 (amended): `decode(encode(f,t)) = sanitize(base(f)) ++ ext(f)`
holds for every `f` and `t` whose SANITIZED base neither contains `"__"` nor
ends in `'_'`; `encode(f,t)` is the basename of the stored key
(`mkKey f t = "uploads/" ++ encode(f,t)`). -/
theorem C5_roundtrip (f : String) (t : Nat)
    (hm : hasMarker (sanitize (basenameExt f (extname f))).data = false)
    (hl : (sanitize (basenameExt f (extname f))).data.getLast? ≠ some '_') :
    mkKey f t = "uploads/" ++ encodedName f t ∧
    decodeDisplay (encodedName f t) =
      sanitize (basenameExt f (extname f)) ++ extname f :=
  ⟨mkKey_eq_encodedName f t, decodeDisplay_encodedName f t hm hl⟩

/-- Claim C5 witness: the round trip at the spec's own example. -/
theorem C5_roundtrip_witness :
    decodeDisplay (encodedName "My Report.pdf" 1700000000000) =
      sanitize (basenameExt "My Report.pdf" (extname "My Report.pdf"))
        ++ extname "My Report.pdf" :=
  (C5_roundtrip "My Report.pdf" 1700000000000 (by decide) (by decide)).2

/-- Claim C6: the `/api/files` pipeline of each variant returns exactly one
item per distinct composite — `(key, sizeBytes, modifiedAtMillis)` in variant
A, `(accessUrl, sizeBytes, modifiedAtMillis)` in variant B: for every
collected entry, the returned sequence holds exactly one item sharing its
composite (duplicates collapse, any difference in a component keeps both). -/
theorem C6_dedup_exact (lA : List Item) (x : Item) (hx : x ∈ lA)
    (lB : List ItemB) (xB : ItemB) (hxB : xB ∈ lB) :
    (runFiles lA).countP (fun y =>
        decide ((y.key, y.size, y.uploadedAt) = (x.key, x.size, x.uploadedAt))) = 1 ∧
    (runFilesB lB).countP (fun y =>
        decide ((y.url, y.size, y.uploadedAt) = (xB.url, xB.size, xB.uploadedAt))) = 1 := by
  constructor
  · have hfun : (fun (y : Item) =>
        decide ((y.key, y.size, y.uploadedAt) = (x.key, x.size, x.uploadedAt))) =
        (fun y => decide (compositeA y = compositeA x)) := by
      funext y
      rw [decide_eq_decide]
      constructor
      · intro h
        simp only [Prod.mk.injEq] at h
        rw [compositeA, compositeA, h.1, h.2.1, h.2.2]
      · intro h
        simp only [compositeA] at h
        have := composite_inj h
        simp [Prod.mk.injEq, this.1, this.2.1, this.2.2]
    have hperm : (runFiles lA).countP (fun y => decide (compositeA y = compositeA x)) =
        (dedupA lA).countP (fun y => decide (compositeA y = compositeA x)) := by
      rw [runFiles, sortItems]
      exact (List.perm_insertionSort _ _).countP_eq _
    rw [hfun, hperm, dedupA]
    exact countP_dedupGo_one compositeA lA [] x (by simp) ⟨x, hx, rfl⟩
  · have hfun : (fun (y : ItemB) =>
        decide ((y.url, y.size, y.uploadedAt) = (xB.url, xB.size, xB.uploadedAt))) =
        (fun y => decide (compositeB y = compositeB xB)) := by
      funext y
      rw [decide_eq_decide]
      constructor
      · intro h
        simp only [Prod.mk.injEq] at h
        rw [compositeB, compositeB, h.1, h.2.1, h.2.2]
      · intro h
        simp only [compositeB] at h
        have := composite_inj h
        simp [Prod.mk.injEq, this.1, this.2.1, this.2.2]
    have hperm : (runFilesB lB).countP (fun y => decide (compositeB y = compositeB xB)) =
        (dedupB lB).countP (fun y => decide (compositeB y = compositeB xB)) := by
      rw [runFilesB, sortItemsB]
      exact (List.perm_insertionSort _ _).countP_eq _
    rw [hfun, hperm, dedupB]
    exact countP_dedupGo_one compositeB lB [] xB (by simp) ⟨xB, hxB, rfl⟩

/-- Claim C6 witness: a duplicated composite collapses to one item in both
variants. -/
theorem C6_dedup_exact_witness :
    (runFiles [⟨"a.pdf", "u", "k", "t", 3, 7, "d"⟩, ⟨"b.pdf", "u2", "k", "t2", 3, 7, "d2"⟩]).countP
        (fun y => decide ((y.key, y.size, y.uploadedAt) = ("k", 3, 7))) = 1 ∧
    (runFilesB [⟨"a.pdf", "u", "t", 3, 7⟩, ⟨"b.pdf", "u", "t2", 3, 7⟩]).countP
        (fun y => decide ((y.url, y.size, y.uploadedAt) = ("u", 3, 7))) = 1 :=
  C6_dedup_exact
    [⟨"a.pdf", "u", "k", "t", 3, 7, "d"⟩, ⟨"b.pdf", "u2", "k", "t2", 3, 7, "d2"⟩]
    ⟨"a.pdf", "u", "k", "t", 3, 7, "d"⟩ (by decide)
    [⟨"a.pdf", "u", "t", 3, 7⟩, ⟨"b.pdf", "u", "t2", 3, 7⟩]
    ⟨"a.pdf", "u", "t", 3, 7⟩ (by decide)

/-- Claim C7: in both variants, the item sequence `/api/files` returns is
sorted newest first — `uploadedAt` is non-increasing across consecutive
elements, for every collected input. -/
theorem C7_sorted_desc (lA : List Item) (lB : List ItemB) :
    List.Chain' (fun a b => b.uploadedAt ≤ a.uploadedAt) (runFiles lA) ∧
    List.Chain' (fun a b => b.uploadedAt ≤ a.uploadedAt) (runFilesB lB) := by
  constructor
  · rw [runFiles, sortItems]
    haveI : IsTotal Item (fun a b => b.uploadedAt ≤ a.uploadedAt) :=
      ⟨fun a b => Nat.le_total b.uploadedAt a.uploadedAt⟩
    haveI : IsTrans Item (fun a b => b.uploadedAt ≤ a.uploadedAt) :=
      ⟨fun _ _ _ h1 h2 => Nat.le_trans h2 h1⟩
    exact (List.sorted_insertionSort _ _).chain'
  · rw [runFilesB, sortItemsB]
    haveI : IsTotal ItemB (fun a b => b.uploadedAt ≤ a.uploadedAt) :=
      ⟨fun a b => Nat.le_total b.uploadedAt a.uploadedAt⟩
    haveI : IsTrans ItemB (fun a b => b.uploadedAt ≤ a.uploadedAt) :=
      ⟨fun _ _ _ h1 h2 => Nat.le_trans h2 h1⟩
    exact (List.sorted_insertionSort _ _).chain'

/-- Claim C8: whenever `/api/upload` reports stored keys, they are exactly
`mkKey` of each file at the single batch timestamp `now` (taken once before
the loop), and within the batch two keys coincide exactly when the files
agree on both the sanitized base and the extension — distinct pairs get
distinct keys, identical pairs collide. -/
theorem C8_batch_keys {σ : Type} (put : σ → String → List Nat → String → Except String σ)
    (lookup : String → Option String) (st : σ) (fs : List UploadedFile) (now : Nat)
    (ks : List String) (f g : String)
    (hks : (runUpload put lookup st fs now).2.files = some ks) :
    ks = fs.map (fun f2 => mkKey f2.originalname now) ∧
    (mkKey f now = mkKey g now ↔
      (sanitize (basenameExt f (extname f)) = sanitize (basenameExt g (extname g)) ∧
        extname f = extname g)) := by
  refine ⟨?_, mkKey_inj now f g⟩
  by_cases h0 : fs.length = 0
  · rw [runUpload, if_pos h0] at hks
    simp at hks
  · rw [runUpload, if_neg h0] at hks
    have := uploadGo_files_keys put lookup now fs st [] ks hks
    simpa using this

/-- Claim C8 witness: a concrete two-file batch stores both keys with the
shared timestamp, and the two keys differ. -/
theorem C8_batch_keys_witness :
    (["uploads/a__5.txt", "uploads/b__5.txt"] =
      ([⟨"a.txt", none, []⟩, ⟨"b.txt", none, []⟩] : List UploadedFile).map
        (fun f2 => mkKey f2.originalname 5)) ∧
    (mkKey "a.txt" 5 = mkKey "b.txt" 5 ↔
      (sanitize (basenameExt "a.txt" (extname "a.txt")) =
          sanitize (basenameExt "b.txt" (extname "b.txt")) ∧
        extname "a.txt" = extname "b.txt")) :=
  C8_batch_keys (fun (st : List String) k _ _ => Except.ok (st ++ [k])) (fun _ => none)
    [] [⟨"a.txt", none, []⟩, ⟨"b.txt", none, []⟩] 5
    ["uploads/a__5.txt", "uploads/b__5.txt"] "a.txt" "b.txt" rfl

/-- Claim C9: `ensureBucket` never propagates an error — its catch swallows
every failure of `getBucket`/`createBucket`/`updateBucket` after logging, so
both routes behave identically whatever the provisioning outcomes are: the
request always proceeds past provisioning to the storage work. -/
theorem C9_ensure_bucket_swallows {σ : Type} (bucket : Option BucketInfo)
    (getErr createErr updErr : Option String)
    (put : σ → String → List Nat → String → Except String σ)
    (lookup : String → Option String) (st : σ) (files : List UploadedFile) (now : Nat)
    (collected : List Item) :
    ensureBucket bucket getErr createErr updErr = Except.ok () ∧
    runUploadRoute bucket getErr createErr updErr put lookup st files now =
      runUpload put lookup st files now ∧
    runFilesRoute bucket getErr createErr updErr collected =
      (200, some (runFiles collected), none) := by
  have h : ensureBucket bucket getErr createErr updErr = Except.ok () := by
    rw [ensureBucket]
    cases ensureBucketBody bucket getErr createErr updErr with
    | error e => rfl
    | ok u => rfl
  refine ⟨h, ?_, ?_⟩
  · rw [runUploadRoute, h]
  · rw [runFilesRoute, h]

/-- Claim C10: both content-type computations (upload line 63, mapper line
84) always produce a non-empty string, and the `||` chain means: the
supplied MIME type when it is a non-empty string, else the `mime.lookup`
result when that is a non-empty string, else exactly
`"application/octet-stream"`. -/
theorem C10_content_type (lookup : String → Option String) (f : UploadedFile)
    (entry : RawEntry) (m lk : Option String) :
    uploadContentType lookup f ≠ "" ∧
    entryType lookup entry ≠ "" ∧
    (∀ s, m = some s → s ≠ "" →
      jsOrOpt m (jsOrOpt lk "application/octet-stream") = s) ∧
    ((m = none ∨ m = some "") → ∀ s, lk = some s → s ≠ "" →
      jsOrOpt m (jsOrOpt lk "application/octet-stream") = s) ∧
    ((m = none ∨ m = some "") → (lk = none ∨ lk = some "") →
      jsOrOpt m (jsOrOpt lk "application/octet-stream") = "application/octet-stream") ∧
    uploadContentType lookup f =
      jsOrOpt f.mimetype
        (jsOrOpt (lookup (extname f.originalname)) "application/octet-stream") ∧
    entryType lookup entry =
      jsOrOpt (entry.metadata.bind (fun mm => mm.mimetype))
        (jsOrOpt (lookup (extname entry.name)) "application/octet-stream") := by
  have hne : ∀ (a : Option String) (b : String), b ≠ "" →
      jsOrOpt a b ≠ "" := by
    intro a b hb
    rcases a with _ | s
    · exact hb
    · rw [jsOrOpt]
      by_cases h : s = ""
      · rw [if_pos h]; exact hb
      · rw [if_neg h]; exact h
  have hoct : ("application/octet-stream" : String) ≠ "" := by decide
  refine ⟨hne _ _ (hne _ _ hoct), hne _ _ (hne _ _ hoct), ?_, ?_, ?_, rfl, rfl⟩
  · intro s hs hne2
    rw [hs, jsOrOpt, if_neg hne2]
  · intro hm s hs hne2
    rcases hm with hm | hm
    · rw [hm, hs]
      show jsOrOpt (some s) "application/octet-stream" = s
      rw [jsOrOpt, if_neg hne2]
    · rw [hm, hs]
      show jsOrOpt (some s) "application/octet-stream" = s
      rw [jsOrOpt, if_neg hne2]
  · intro hm hlk
    have h2 : jsOrOpt lk "application/octet-stream" = "application/octet-stream" := by
      rcases hlk with h | h <;> rw [h] <;> simp [jsOrOpt]
    rcases hm with h | h <;> rw [h, h2] <;> rfl

/-- Claim C10 witness: a file without a client MIME type falls back to the
lookup result. -/
theorem C10_content_type_witness :
    uploadContentType (fun _ => some "text/plain") ⟨"a.txt", none, []⟩ = "text/plain" :=
  ((C10_content_type (fun _ => some "text/plain") ⟨"a.txt", none, []⟩
      ⟨"n", none, none, none, none, none⟩ none (some "text/plain")).2.2.2.1
    (Or.inl rfl) "text/plain" rfl (by decide))
